import Mathlib

/-!
Shallow embedding of the retrieval / ranking / chunking / indexing core of the
Regulatory-Agent repository (src/utilities.py, src/chunker.py, src/indexer.py,
src/db.py, src/langchain/db.py), together with theorems checking the
natural-language specification's claims against it.

Python strings are modelled as Lean `String` / `List Char`; Python dict rows as
structures; Python `None` as `Option`; a raised-and-not-caught Python exception
as `Except.error`.  External backends (Chroma collection, Whoosh index, the
text splitter of langchain) are parameters of the embedded functions, exactly
at the call boundary the source uses them.
-/

namespace RegAgent

/- ### Numeric-richness scoring, src/utilities.py lines 75-86 -/

/-- Number of matches of the bare-number pattern (a maximal digit run) in a
character list, i.e. the length of Python `re.findall` of a digit-run pattern.
`inRun` records whether the previous character was a digit. -/
def countRunsAux : List Char → Bool → Nat
  | [], _ => 0
  | c :: rest, inRun =>
    if c.isDigit then (if inRun then 0 else 1) + countRunsAux rest true
    else countRunsAux rest false

/-- Matches of the bare-number pattern, utilities.py line 79. -/
def countNum (l : List Char) : Nat := countRunsAux l false

/-- Matches of the percentage pattern (digit run immediately followed by one or
more percent signs), utilities.py line 78.  `afterDigit` records whether the
previous character was a digit. -/
def countPctAux : List Char → Bool → Nat
  | [], _ => 0
  | c :: rest, afterDigit =>
    if c.isDigit then countPctAux rest true
    else
      if c = '%' then (if afterDigit then 1 else 0) + countPctAux rest false
      else countPctAux rest false

/-- Matches of the percentage pattern, utilities.py line 78. -/
def countPct (l : List Char) : Nat := countPctAux l false

/-- Drop a leading digit run. -/
def dropDigits (l : List Char) : List Char := l.dropWhile Char.isDigit

/-- Consume the tail of one currency match after its first digit: the rest of
the integer part, an optional fractional part (a dot only counts when a digit
follows it), and an optional magnitude suffix `M`, `B` or `K`. -/
def afterMoney (l : List Char) : List Char :=
  let l1 := dropDigits l
  let l2 :=
    match l1 with
    | '.' :: c :: rest => if c.isDigit then dropDigits (c :: rest) else l1
    | _ => l1
  match l2 with
  | c :: rest => if c = 'M' || c = 'B' || c = 'K' then rest else l2
  | [] => l2

/-- Matches of the currency-amount pattern (a dollar sign, digits, optional
decimals, optional magnitude letter), utilities.py line 77, scanned left to
right without overlap.  The fuel argument is a step bound; `countMoney` below
supplies one that always suffices. -/
def countMoneyF : Nat → List Char → Nat
  | 0, _ => 0
  | _ + 1, [] => 0
  | fuel + 1, c :: rest =>
    if c = '$' then
      match rest with
      | [] => 0
      | d :: rest2 =>
        if d.isDigit then 1 + countMoneyF fuel (afterMoney rest2)
        else countMoneyF fuel rest
    else countMoneyF fuel rest

/-- Matches of the currency-amount pattern, utilities.py line 77. -/
def countMoney (l : List Char) : Nat := countMoneyF l.length l

/-- Python `str.lower()` on the ASCII texts this pipeline handles. -/
def pyLower (s : String) : List Char := s.data.map Char.toLower

/-- Python substring test helper: does `hay` start with `needle`? -/
def beginsWith : List Char → List Char → Bool
  | [], _ => true
  | _ :: _, [] => false
  | a :: as, b :: bs => a == b && beginsWith as bs

/-- Python `needle in hay` substring containment on character lists. -/
def containsSub (needle : List Char) : List Char → Bool
  | [] => beginsWith needle []
  | c :: rest => beginsWith needle (c :: rest) || containsSub needle rest

/-- src/utilities.py lines 75-80, `score_numeric_richness`. -/
def score_numeric_richness (text : String) : Nat :=
  5 * countMoney text.data + 3 * countPct text.data + 1 * countNum text.data

/-- src/utilities.py lines 82-86, `score_table_relevance`. -/
def score_table_relevance (text : String) : Nat :=
  (if containsSub "table".data (pyLower text) then 3 else 0) + score_numeric_richness text

/- ### Stable sorting, modelling Python `sorted(key=f, reverse=True)` -/

/-- Insert `x` into `l`, skipping past exactly the elements that must come
strictly before `x`; placed before equal elements, which yields stability when
used by `sortS` below. -/
def insertS {α : Type} (lt : α → α → Bool) (x : α) : List α → List α
  | [] => [x]
  | y :: ys => if lt x y then y :: insertS lt x ys else x :: y :: ys

/-- Stable insertion sort: the unique stable sort for the strict order `lt`. -/
def sortS {α : Type} (lt : α → α → Bool) : List α → List α
  | [] => []
  | x :: xs => insertS lt x (sortS lt xs)

/-- The strict order of a descending key sort: `a` must go after `b` exactly
when its key is smaller. -/
def ltKey {α : Type} (f : α → Nat) (a b : α) : Bool := decide (f a < f b)

/-- Python `sorted(l, key=f, reverse=True)`: stable descending sort by key. -/
def pySortDescBy {α : Type} (f : α → Nat) (l : List α) : List α :=
  sortS (ltKey f) l

/-- Strict two-key lexicographic comparison for a descending sort: `a` goes
after `b` when its primary key is smaller, or the primary keys tie and its
secondary key is smaller. -/
def lexLt {α : Type} (f g : α → Nat) (a b : α) : Bool :=
  decide (f a < f b) || (decide (f a = f b) && decide (g a < g b))

/-- src/utilities.py line 109: the module-level `top_k` budget. -/
def top_k : Nat := 5

/-- src/utilities.py lines 139-141: the ranking step of `query_discom_orders`.
The retrieved passages are sorted (stably, descending) by
`score_table_relevance`, the result is sorted again (stably, descending) by
`score_numeric_richness`, and the first `k` entries are kept. -/
def rank (passages : List String) (k : Nat) : List String :=
  (pySortDescBy score_numeric_richness (pySortDescBy score_table_relevance passages)).take k

/-- Written from the spec's words (section 4.5): one stable descending sort by
the single combined score, then truncation to `k`. -/
def specRankCombined (passages : List String) (k : Nat) : List String :=
  (pySortDescBy score_table_relevance passages).take k

/- ### Query expansion, src/utilities.py lines 88-104 -/

/-- Character class of the keyword pattern: an ASCII letter or digit. -/
def wordChar (c : Char) : Bool := c.isAlpha || c.isDigit

/-- Python `re.findall` of the word pattern of utilities.py line 89: the
maximal letter-digit runs that are at a word boundary on both sides — an
adjacent underscore (the only word character outside the class) suppresses the
boundary and hence the whole run.  `prev` is the character just before the
current position; the fuel is a step bound supplied by `pyFindWords`. -/
def tokensF : Nat → List Char → Option Char → List String
  | 0, _, _ => []
  | _ + 1, [], _ => []
  | fuel + 1, c :: rest, prev =>
    if wordChar c then
      let run := (c :: rest).takeWhile wordChar
      let after := (c :: rest).dropWhile wordChar
      (if (prev != some '_') && (after.head? != some '_') then [String.mk run] else []) ++
        tokensF fuel after run.getLast?
    else tokensF fuel rest (some c)

/-- Keyword extraction of utilities.py line 89 (after lowering). -/
def pyFindWords (s : List Char) : List String := tokensF s.length s none

/-- src/utilities.py line 90: the stop-word set. -/
def stopwords : List String :=
  ["the", "is", "for", "and", "as", "of", "to", "in", "on", "by", "with", "a", "an", "what"]

/-- Add an element to the back of the list unless already present: the
insertion-ordered model of growing a Python `set`. -/
def addNew (l : List String) (x : String) : List String :=
  if x ∈ l then l else l ++ [x]

/-- Python `" ".join(keywords[i:i+n])`. -/
def sliceJoin (kws : List String) (i n : Nat) : String :=
  " ".intercalate ((kws.drop i).take n)

/-- The index list of Python `range(len - n + 1)` over int arithmetic: empty
when `n` exceeds `len`. -/
def pyRangeCount (len n : Nat) : List Nat :=
  if n ≤ len then List.range (len - n + 1) else []

/-- utilities.py lines 92-94: all contiguous 1-, 2- and 3-grams of the keyword
list, collected into a set (here: an insertion-ordered duplicate-free list). -/
def ngramsList (kws : List String) : List String :=
  [1, 2, 3].foldl
    (fun acc n => (pyRangeCount kws.length n).foldl (fun a i => addNew a (sliceJoin kws i n)) acc)
    []

/-- src/utilities.py lines 88-104, `extract_retrieval_queries`.  The Python
`None` defaults and truthiness tests of `must_include` / `exclude_keywords`
are modelled by `Option` / the empty list and explicit emptiness tests. -/
def extract_retrieval_queries (user_question : String) (exclude_keywords : List String)
    (must_include : Option String) : List String :=
  let keywords := (pyFindWords (pyLower user_question)).filter (fun kw => kw ∉ stopwords)
  let base := addNew (ngramsList keywords) user_question
  let qs1 :=
    match must_include with
    | some m => if m = "" then base else base.map (fun q => q ++ " " ++ m)
    | none => base
  match exclude_keywords with
  | [] => qs1
  | _ :: _ =>
    qs1.map (fun q => q ++ " " ++ " ".intercalate (exclude_keywords.map (fun kw => "NOT " ++ kw)))

/- ### Data rows: pages, chunks, metadata -/

/-- A page dict as produced by the parser; `none` in a field models a missing
dictionary key (reading it raises `KeyError`). -/
structure Page where
  page_number : Option Nat
  content : Option String
  source : Option String
deriving DecidableEq

/-- A chunk dict with its three required fields. -/
structure Chunk where
  page_number : Nat
  content : String
  source : String
deriving DecidableEq

/-- The metadata dict stored with an index entry. -/
structure Meta where
  page_number : Nat
  source : String
deriving DecidableEq

/-- Metadata row built from a chunk, src/indexer.py line 27. -/
def chunkMeta (c : Chunk) : Meta := ⟨c.page_number, c.source⟩

/- ### Chunker, src/chunker.py lines 17-42 -/

/-- One iteration of the page loop of `Chunker.chunk`: read the three keys
(raising `KeyError` on a missing one), then either split a long page with the
external text splitter or pass the page through unchanged.  The length
threshold `len(content) > chunk_size * 1.5` is the exact integer form of the
float comparison. -/
def chunkPage (split : String → List String) (chunk_size : Nat) (p : Page) :
    Except String (List Chunk) :=
  match p.page_number, p.content, p.source with
  | some n, some c, some s =>
    if 3 * chunk_size < 2 * c.length then
      Except.ok ((split c).map (fun piece => ⟨n, piece, s⟩))
    else Except.ok [⟨n, c, s⟩]
  | _, _, _ => Except.error "KeyError"

/-- The page loop of `Chunker.chunk` without its surrounding try/except: the
first raising page aborts the loop with its exception. -/
def chunkPagesExc (split : String → List String) (chunk_size : Nat) :
    List Page → Except String (List Chunk)
  | [] => Except.ok []
  | p :: ps =>
    match chunkPage split chunk_size p with
    | Except.error e => Except.error e
    | Except.ok cks =>
      match chunkPagesExc split chunk_size ps with
      | Except.error e => Except.error e
      | Except.ok rest => Except.ok (cks ++ rest)

/-- src/chunker.py lines 17-42, `Chunker.chunk`: the whole loop runs under one
try/except which returns the empty list on any exception. -/
def Chunker.chunk (split : String → List String) (chunk_size : Nat) (pages : List Page) :
    List Chunk :=
  match chunkPagesExc split chunk_size pages with
  | Except.ok cks => cks
  | Except.error _ => []

/- ### Indexer, src/indexer.py lines 11-57, and DB.get_ready, src/db.py lines 26-36 -/

/-- The loop state of `Indexer.get_ready`: the seen-hash set plus the three
parallel output lists. -/
structure ReadyState where
  check : List String
  ids : List String
  texts : List String
  metadatas : List Meta
deriving DecidableEq

/-- One iteration of the chunk loop of `Indexer.get_ready`, src/indexer.py
lines 18-27: hash the content, skip when the hash was seen, otherwise record
the hash and append id, text and metadata.  The backend hash (blake2b) is a
parameter. -/
def getReadyStep (hash : String → String) (st : ReadyState) (c : Chunk) : ReadyState :=
  let temp := hash c.content
  if temp ∈ st.check then st
  else ⟨temp :: st.check, st.ids ++ [temp], st.texts ++ [c.content],
    st.metadatas ++ [chunkMeta c]⟩

/-- src/indexer.py lines 11-29, `Indexer.get_ready`. -/
def Indexer.get_ready (hash : String → String) (chunked_content : List Chunk) :
    List String × List String × List Meta :=
  let st := chunked_content.foldl (getReadyStep hash) ⟨[], [], [], []⟩
  (st.ids, st.texts, st.metadatas)

/-- The id of an index entry, src/indexer.py line 19: the content hash of the
chunk's text. -/
def entryId (hash : String → String) (c : Chunk) : String := hash c.content

/-- src/db.py lines 26-36, `DB.get_ready`: same three lists but with no
seen-hash set — every chunk is emitted, duplicates included. -/
def DB.get_ready (hash : String → String) (chunked_content : List Chunk) :
    List String × List String × List Meta :=
  (chunked_content.map (fun c => hash c.content),
   chunked_content.map (fun c => c.content),
   chunked_content.map chunkMeta)

/-- Written from the spec's words (section 4.2): deduplicate chunks by
content, tracking a seen set, dropping repeats and keeping first-seen order.
`seen` is the set of contents already emitted. -/
def firstDedupAux (seen : List String) : List Chunk → List Chunk
  | [] => []
  | c :: cs =>
    if c.content ∈ seen then firstDedupAux seen cs
    else c :: firstDedupAux (c.content :: seen) cs

/-- Written from the spec's words (section 4.2): first-occurrence
deduplication of a chunk list by content. -/
def specFirstDedup (chunks : List Chunk) : List Chunk := firstDedupAux [] chunks

/-- The batch slices of the loop `for i in range(0, len(ids), batch_size)` of
src/indexer.py lines 37-41, for a positive batch size.  The fuel is a step
bound; `Indexer.index` supplies one that suffices. -/
def batchesF (fuel : Nat) (bs : Nat) :
    List String → List String → List Meta → List (List String × List String × List Meta)
  | [], _, _ => []
  | x :: xs, texts, metas =>
    match fuel with
    | 0 => []
    | fuel + 1 =>
      ((x :: xs).take bs, texts.take bs, metas.take bs) ::
        batchesF fuel bs ((x :: xs).drop bs) (texts.drop bs) (metas.drop bs)

/-- src/indexer.py lines 31-57, `Indexer.index`: prepare the deduplicated
lists, slice them into batches, and submit every batch in order.  The backend
`collection.add` call is modelled by `addOk`, which reports whether the batch
write succeeded; the source catches a failure, logs it and continues with the
next batch, so the returned attempt log pairs every batch with its outcome. -/
def Indexer.index (hash : String → String)
    (addOk : List String → List String → List Meta → Bool)
    (chunked_content : List Chunk) (batch_size : Nat) :
    List ((List String × List String × List Meta) × Bool) :=
  let r := Indexer.get_ready hash chunked_content
  (batchesF r.1.length batch_size r.1 r.2.1 r.2.2).map
    (fun b => (b, addOk b.1 b.2.1 b.2.2))

/- ### DB.query, src/langchain/db.py lines 66-83 (same body as src/db.py lines 65-82) -/

/-- Did this computation raise? -/
def exceptErr {ε α : Type} : Except ε α → Bool
  | Except.error _ => true
  | Except.ok _ => false

/-- src/langchain/db.py lines 66-83, `DB.query`.  The Chroma collection is
modelled by its document count and its `query` endpoint, which returns one
ranked document list per query text or raises.  The source returns `None` when
the collection is empty, when the backend raises, and when the indexing
`retreival["documents"][0]` raises; otherwise the first query's documents. -/
def DB.query (count : Nat)
    (backend : List String → Nat → Except String (List (List String)))
    (queries : List String) (topk : Nat) : Option (List String) :=
  if count = 0 then none
  else
    match backend queries (min topk count) with
    | Except.error _ => none
    | Except.ok docs =>
      match docs with
      | [] => none
      | d :: _ => some d

/-- Python `result_chroma + result_whoosh` where the left operand may be
`None`: adding `None` to a list raises `TypeError`. -/
def pyConcat (left : Option (List String)) (right : List String) :
    Except String (List String) :=
  match left with
  | none => Except.error "TypeError"
  | some l => Except.ok (l ++ right)

/-- src/utilities.py lines 130-143: the body of the per-query loop of
`query_discom_orders` — dense query (default `top_k=10` of the langchain `DB`),
lexical results appended, double sort and truncation to the module `top_k`.
The Whoosh results are a parameter, as their backend is. -/
def retrieveStep (count : Nat)
    (backend : List String → Nat → Except String (List (List String)))
    (whooshDocs : List String) (q : String) : Except String (List String) :=
  match pyConcat (DB.query count backend [q] 10) whooshDocs with
  | Except.error e => Except.error e
  | Except.ok result => Except.ok (rank result top_k)

/-! ## Helper lemmas: stable sorting -/

theorem ltKey_eq_true {α : Type} (f : α → Nat) (a b : α) :
    ltKey f a b = true ↔ f a < f b := by
  simp [ltKey]

theorem lexLt_eq_true {α : Type} (f g : α → Nat) (a b : α) :
    lexLt f g a b = true ↔ f a < f b ∨ (f a = f b ∧ g a < g b) := by
  simp [lexLt]

theorem mem_insertS {α : Type} (lt : α → α → Bool) (x a : α) (l : List α) :
    a ∈ insertS lt x l ↔ a = x ∨ a ∈ l := by
  induction l with
  | nil => simp [insertS]
  | cons y ys ih =>
    simp only [insertS]
    cases h : lt x y with
    | true =>
      simp only [h, if_true, List.mem_cons, ih]
      tauto
    | false =>
      simp only [h, Bool.false_eq_true, if_false, List.mem_cons]

theorem mem_sortS {α : Type} (lt : α → α → Bool) (a : α) (l : List α) :
    a ∈ sortS lt l ↔ a ∈ l := by
  induction l with
  | nil => simp [sortS]
  | cons x xs ih => simp [sortS, mem_insertS, ih]

theorem pairwise_insertS {α : Type} (g : α → Nat) (x : α) (l : List α)
    (hl : l.Pairwise (fun a b => g b ≤ g a)) :
    (insertS (ltKey g) x l).Pairwise (fun a b => g b ≤ g a) := by
  induction l with
  | nil => simp [insertS]
  | cons y ys ih =>
    rcases List.pairwise_cons.mp hl with ⟨hy, hys⟩
    simp only [insertS]
    cases h : ltKey g x y with
    | true =>
      refine List.pairwise_cons.mpr ⟨?_, ih hys⟩
      intro z hz
      rcases (mem_insertS (ltKey g) x z ys).mp hz with hzx | hz
      · rw [hzx]
        exact Nat.le_of_lt ((ltKey_eq_true g x y).mp h)
      · exact hy z hz
    | false =>
      refine List.pairwise_cons.mpr ⟨?_, hl⟩
      intro z hz
      have hxy : g y ≤ g x := by
        simp only [ltKey, decide_eq_false_iff_not] at h
        omega
      rcases List.mem_cons.mp hz with rfl | hz
      · exact hxy
      · exact Nat.le_trans (hy z hz) hxy

theorem pairwise_sortS {α : Type} (g : α → Nat) (l : List α) :
    (sortS (ltKey g) l).Pairwise (fun a b => g b ≤ g a) := by
  induction l with
  | nil => simp [sortS]
  | cons x xs ih => exact pairwise_insertS g x _ ih

theorem insertS_swap {α : Type} (f g : α → Nat) (x y : α) (hxy : g x < g y) (N : List α) :
    insertS (ltKey f) y (insertS (lexLt f g) x N) =
      insertS (lexLt f g) x (insertS (ltKey f) y N) := by
  induction N with
  | nil =>
    simp only [insertS]
    rcases Nat.lt_trichotomy (f x) (f y) with hf | hf | hf
    · have h1 : ltKey f y x = false := by
        simp only [ltKey, decide_eq_false_iff_not]
        omega
      have h2 : lexLt f g x y = true := by
        simp only [lexLt, Bool.or_eq_true, Bool.and_eq_true, decide_eq_true_eq]
        omega
      simp [h1, h2]
    · have h1 : ltKey f y x = false := by
        simp only [ltKey, decide_eq_false_iff_not]
        omega
      have h2 : lexLt f g x y = true := by
        simp only [lexLt, Bool.or_eq_true, Bool.and_eq_true, decide_eq_true_eq]
        omega
      simp [h1, h2]
    · have h1 : ltKey f y x = true := by
        simp only [ltKey, decide_eq_true_eq]
        omega
      have h2 : lexLt f g x y = false := by
        simp only [lexLt, Bool.or_eq_false_iff, Bool.and_eq_false_iff,
          decide_eq_false_iff_not]
        omega
      simp [h1, h2]
  | cons z N ih =>
    cases hLx : lexLt f g x z with
    | true =>
      have hLxP : f x < f z ∨ (f x = f z ∧ g x < g z) := (lexLt_eq_true f g x z).mp hLx
      have e1 : insertS (lexLt f g) x (z :: N) = z :: insertS (lexLt f g) x N := by
        simp [insertS, hLx]
      cases hFy : ltKey f y z with
      | true =>
        calc insertS (ltKey f) y (insertS (lexLt f g) x (z :: N))
            = z :: insertS (ltKey f) y (insertS (lexLt f g) x N) := by
              rw [e1]; simp [insertS, hFy]
          _ = z :: insertS (lexLt f g) x (insertS (ltKey f) y N) := by rw [ih]
          _ = insertS (lexLt f g) x (insertS (ltKey f) y (z :: N)) := by
              simp [insertS, hFy, hLx]
      | false =>
        have hFyP : ¬ f y < f z := by simpa [ltKey] using hFy
        have hLy : lexLt f g x y = true := by
          simp only [lexLt, Bool.or_eq_true, Bool.and_eq_true, decide_eq_true_eq]
          omega
        calc insertS (ltKey f) y (insertS (lexLt f g) x (z :: N))
            = insertS (ltKey f) y (z :: insertS (lexLt f g) x N) := by rw [e1]
          _ = y :: z :: insertS (lexLt f g) x N := by simp [insertS, hFy]
          _ = insertS (lexLt f g) x (insertS (ltKey f) y (z :: N)) := by
              simp [insertS, hFy, hLy, hLx]
    | false =>
      have hLxP : ¬ (f x < f z ∨ (f x = f z ∧ g x < g z)) := by
        rw [← lexLt_eq_true f g]
        simp [hLx]
      have e1 : insertS (lexLt f g) x (z :: N) = x :: z :: N := by
        simp [insertS, hLx]
      cases hFy : ltKey f y z with
      | true =>
        have hFyP : f y < f z := by simpa [ltKey] using hFy
        have hyx : ltKey f y x = true := by
          simp only [ltKey, decide_eq_true_eq]
          omega
        calc insertS (ltKey f) y (insertS (lexLt f g) x (z :: N))
            = insertS (ltKey f) y (x :: z :: N) := by rw [e1]
          _ = x :: z :: insertS (ltKey f) y N := by simp [insertS, hyx, hFy]
          _ = insertS (lexLt f g) x (insertS (ltKey f) y (z :: N)) := by
              simp [insertS, hFy, hLx]
      | false =>
        have hFyP : ¬ f y < f z := by simpa [ltKey] using hFy
        rcases Nat.lt_trichotomy (f x) (f y) with hf | hf | hf
        · have h1 : ltKey f y x = false := by
            simp only [ltKey, decide_eq_false_iff_not]
            omega
          have h2 : lexLt f g x y = true := by
            simp only [lexLt, Bool.or_eq_true, Bool.and_eq_true, decide_eq_true_eq]
            omega
          calc insertS (ltKey f) y (insertS (lexLt f g) x (z :: N))
              = insertS (ltKey f) y (x :: z :: N) := by rw [e1]
            _ = y :: x :: z :: N := by simp [insertS, h1]
            _ = insertS (lexLt f g) x (insertS (ltKey f) y (z :: N)) := by
                simp [insertS, hFy, h2, hLx]
        · have h1 : ltKey f y x = false := by
            simp only [ltKey, decide_eq_false_iff_not]
            omega
          have h2 : lexLt f g x y = true := by
            simp only [lexLt, Bool.or_eq_true, Bool.and_eq_true, decide_eq_true_eq]
            omega
          calc insertS (ltKey f) y (insertS (lexLt f g) x (z :: N))
              = insertS (ltKey f) y (x :: z :: N) := by rw [e1]
            _ = y :: x :: z :: N := by simp [insertS, h1]
            _ = insertS (lexLt f g) x (insertS (ltKey f) y (z :: N)) := by
                simp [insertS, hFy, h2, hLx]
        · have h1 : ltKey f y x = true := by
            simp only [ltKey, decide_eq_true_eq]
            omega
          have h2 : lexLt f g x y = false := by
            simp only [lexLt, Bool.or_eq_false_iff, Bool.and_eq_false_iff,
              decide_eq_false_iff_not]
            omega
          calc insertS (ltKey f) y (insertS (lexLt f g) x (z :: N))
              = insertS (ltKey f) y (x :: z :: N) := by rw [e1]
            _ = x :: y :: z :: N := by simp [insertS, h1, hFy]
            _ = insertS (lexLt f g) x (insertS (ltKey f) y (z :: N)) := by
                simp [insertS, hFy, h2]

theorem insertS_f_eq_lex {α : Type} (f g : α → Nat) (x : α) (N : List α)
    (h : ∀ z ∈ N, g z ≤ g x) :
    insertS (ltKey f) x N = insertS (lexLt f g) x N := by
  induction N with
  | nil => simp [insertS]
  | cons z N ih =>
    have hz : g z ≤ g x := h z (List.mem_cons_self z N)
    have heq : lexLt f g x z = ltKey f x z := by
      simp only [lexLt, ltKey]
      have hngz : ¬ g x < g z := by omega
      simp [hngz]
    simp only [insertS, heq]
    cases hc : ltKey f x z with
    | true =>
      simp only [hc, if_true]
      rw [ih (fun w hw => h w (List.mem_cons_of_mem z hw))]
    | false => simp [hc]

theorem sortS_insertS {α : Type} (f g : α → Nat) (x : α) (M : List α)
    (hM : M.Pairwise (fun a b => g b ≤ g a)) :
    sortS (ltKey f) (insertS (ltKey g) x M) = insertS (lexLt f g) x (sortS (ltKey f) M) := by
  induction M with
  | nil => simp [sortS, insertS]
  | cons y M ih =>
    rcases List.pairwise_cons.mp hM with ⟨hy, hM2⟩
    simp only [insertS]
    cases hc : ltKey g x y with
    | true =>
      simp only [hc, if_true, sortS]
      rw [ih hM2]
      exact insertS_swap f g x y ((ltKey_eq_true g x y).mp hc) _
    | false =>
      simp only [hc, Bool.false_eq_true, if_false, sortS]
      refine insertS_f_eq_lex f g x _ ?_
      intro z hz
      have hyx : g y ≤ g x := by
        have hngxy : ¬ g x < g y := by simpa [ltKey] using hc
        omega
      rcases (mem_insertS (ltKey f) y z (sortS (ltKey f) M)).mp hz with hzy | hz2
      · rw [hzy]
        exact hyx
      · exact Nat.le_trans (hy z ((mem_sortS (ltKey f) z M).mp hz2)) hyx

theorem double_sort_eq_lex {α : Type} (f g : α → Nat) (l : List α) :
    sortS (ltKey f) (sortS (ltKey g) l) = sortS (lexLt f g) l := by
  induction l with
  | nil => simp [sortS]
  | cons x l ih =>
    simp only [sortS]
    rw [sortS_insertS f g x _ (pairwise_sortS g l), ih]

/-! ## Helper lemmas: substring containment -/

theorem beginsWith_iff (n h : List Char) :
    beginsWith n h = true ↔ ∃ post, n ++ post = h := by
  induction n generalizing h with
  | nil => simp [beginsWith]
  | cons a as ih =>
    cases h with
    | nil => simp [beginsWith]
    | cons b bs =>
      simp only [beginsWith, Bool.and_eq_true, beq_iff_eq, ih, List.cons_append,
        List.cons.injEq]
      constructor
      · rintro ⟨hab, post, hp⟩
        exact ⟨post, hab, hp⟩
      · rintro ⟨post, hab, hp⟩
        exact ⟨hab, post, hp⟩

theorem containsSub_iff (n h : List Char) :
    containsSub n h = true ↔ ∃ pre post, pre ++ n ++ post = h := by
  induction h with
  | nil =>
    simp only [containsSub, beginsWith_iff]
    constructor
    · rintro ⟨post, hp⟩
      exact ⟨[], post, by simpa using hp⟩
    · rintro ⟨pre, post, hp⟩
      have h1 := List.append_eq_nil.mp hp
      have h2 := List.append_eq_nil.mp h1.1
      exact ⟨[], by simp [h2.2]⟩
  | cons c rest ih =>
    simp only [containsSub, Bool.or_eq_true, beginsWith_iff, ih]
    constructor
    · rintro (⟨post, hp⟩ | ⟨pre, post, hp⟩)
      · exact ⟨[], post, by simpa using hp⟩
      · exact ⟨c :: pre, post, by simp [hp]⟩
    · rintro ⟨pre, post, hp⟩
      cases pre with
      | nil =>
        left
        exact ⟨post, by simpa using hp⟩
      | cons p ps =>
        right
        simp only [List.cons_append, List.cons.injEq] at hp
        exact ⟨ps, post, hp.2⟩

/-! ## Claim C4 -/

/-- C4: for every passage text, the numeric-richness score is
`5 * currency-matches + 3 * percentage-matches + 1 * bare-number-matches`, and
the table-relevance score adds a flat bonus of 3, additively with
numeric-richness, exactly when the text case-insensitively contains the
substring "table"; checked on the worked examples as well. -/
theorem C4_scoring_formula (t : String) :
    score_numeric_richness t =
        5 * countMoney t.data + 3 * countPct t.data + 1 * countNum t.data
    ∧ score_table_relevance t =
        score_numeric_richness t + (if containsSub "table".data (pyLower t) then 3 else 0)
    ∧ (containsSub "table".data (pyLower t) = true ↔
        ∃ pre post, pre ++ "table".data ++ post = t.data.map Char.toLower)
    ∧ score_table_relevance "Table 2: rates at 15%" = 8
    ∧ score_numeric_richness "Table 2: rates at 15%" = 5
    ∧ score_numeric_richness "$100 charge" = 6 := by
  refine ⟨rfl, ?_, ?_, by decide, by decide, by decide⟩
  · simp [score_table_relevance, Nat.add_comm]
  · simpa [pyLower] using containsSub_iff "table".data (pyLower t)

/-! ## Claim C1 -/

/-- C1 (counterexample): on the three passages of the claim with `top_k = 2`,
the code's ranking returns the two passages in the opposite order of the one
the claim states; the spec's single combined-score sort would produce the
claimed order. -/
theorem C1_counterexample_ranking_order :
    rank ["No numbers here.", "$100 charge", "Table 2: rates at 15%"] 2 ≠
        ["Table 2: rates at 15%", "$100 charge"]
    ∧ rank ["No numbers here.", "$100 charge", "Table 2: rates at 15%"] 2 =
        ["$100 charge", "Table 2: rates at 15%"]
    ∧ specRankCombined ["No numbers here.", "$100 charge", "Table 2: rates at 15%"] 2 =
        ["Table 2: rates at 15%", "$100 charge"] := by
  refine ⟨by decide, by decide, by decide⟩

/-- C1 (amended): the ranking step is two successive stable descending sorts —
first by the combined score, then by numeric-richness alone — which equals one
stable descending sort by the lexicographic key (numeric-richness first,
combined score as tie-break), truncated to `top_k`; the output is therefore
ordered primarily by numeric-richness, and on the claim's three passages with
`top_k = 2` it is `["$100 charge", "Table 2: rates at 15%"]`. -/
theorem C1_rank_two_pass_lex_sort (passages : List String) (k : Nat) :
    rank passages k =
        (sortS (lexLt score_numeric_richness score_table_relevance) passages).take k
    ∧ (rank passages k).Pairwise
        (fun a b => score_numeric_richness b ≤ score_numeric_richness a)
    ∧ rank ["No numbers here.", "$100 charge", "Table 2: rates at 15%"] 2 =
        ["$100 charge", "Table 2: rates at 15%"] := by
  refine ⟨?_, ?_, by decide⟩
  · unfold rank pySortDescBy
    rw [double_sort_eq_lex]
  · exact List.Pairwise.sublist (List.take_sublist k _)
      (pairwise_sortS score_numeric_richness
        (pySortDescBy score_table_relevance passages))

/-! ## Helper lemmas: the get_ready loop of the Indexer -/

theorem getReady_foldl_spec (hash : String → String) (hinj : Function.Injective hash) :
    ∀ (cs : List Chunk) (seen : List String) (I T : List String) (M : List Meta),
      List.foldl (getReadyStep hash) ⟨seen.map hash, I, T, M⟩ cs =
        ⟨((firstDedupAux seen cs).map (fun c => hash c.content)).reverse ++ seen.map hash,
          I ++ (firstDedupAux seen cs).map (fun c => hash c.content),
          T ++ (firstDedupAux seen cs).map (fun c => c.content),
          M ++ (firstDedupAux seen cs).map chunkMeta⟩ := by
  intro cs
  induction cs with
  | nil =>
    intro seen I T M
    simp [firstDedupAux]
  | cons c cs ih =>
    intro seen I T M
    have hmem : (hash c.content ∈ seen.map hash) ↔ c.content ∈ seen := by
      constructor
      · intro hm
        rcases List.mem_map.mp hm with ⟨a, ha, hae⟩
        rwa [← hinj hae]
      · intro hm
        exact List.mem_map_of_mem hash hm
    by_cases hc : c.content ∈ seen
    · have hc2 : hash c.content ∈ seen.map hash := hmem.mpr hc
      simp only [List.foldl_cons, getReadyStep, firstDedupAux, hc, hc2, if_true]
      exact ih seen I T M
    · have hc2 : hash c.content ∉ seen.map hash := fun h => hc (hmem.mp h)
      simp only [List.foldl_cons, getReadyStep, firstDedupAux, hc, hc2, if_false]
      have step : List.foldl (getReadyStep hash)
          ⟨hash c.content :: seen.map hash, I ++ [hash c.content], T ++ [c.content],
            M ++ [chunkMeta c]⟩ cs =
          ⟨((firstDedupAux (c.content :: seen) cs).map (fun c => hash c.content)).reverse ++
              (c.content :: seen).map hash,
            (I ++ [hash c.content]) ++
              (firstDedupAux (c.content :: seen) cs).map (fun c => hash c.content),
            (T ++ [c.content]) ++
              (firstDedupAux (c.content :: seen) cs).map (fun c => c.content),
            (M ++ [chunkMeta c]) ++ (firstDedupAux (c.content :: seen) cs).map chunkMeta⟩ :=
        ih (c.content :: seen) (I ++ [hash c.content]) (T ++ [c.content]) (M ++ [chunkMeta c])
      rw [step]
      simp [List.append_assoc]

theorem firstDedupAux_nodup :
    ∀ (cs : List Chunk) (seen : List String),
      ((firstDedupAux seen cs).map (fun c => c.content)).Nodup ∧
        ∀ c ∈ firstDedupAux seen cs, c.content ∉ seen := by
  intro cs
  induction cs with
  | nil => intro seen; simp [firstDedupAux]
  | cons c cs ih =>
    intro seen
    by_cases hc : c.content ∈ seen
    · simpa [firstDedupAux, hc] using ih seen
    · simp only [firstDedupAux, hc, if_false, List.map_cons]
      refine ⟨List.nodup_cons.mpr ⟨?_, (ih (c.content :: seen)).1⟩, ?_⟩
      · intro hmem
        rcases List.mem_map.mp hmem with ⟨w, hw, hwe⟩
        exact (ih (c.content :: seen)).2 w hw (by rw [hwe]; exact List.mem_cons_self _ _)
      · intro w hw
        rcases List.mem_cons.mp hw with hwc | hw2
        · rw [hwc]
          exact hc
        · intro hws
          exact (ih (c.content :: seen)).2 w hw2 (List.mem_cons_of_mem _ hws)

theorem getReadyStep_check_sub (hash : String → String) (st : ReadyState) (c : Chunk) :
    st.check ⊆ (getReadyStep hash st c).check := by
  simp only [getReadyStep]
  by_cases hc : hash c.content ∈ st.check
  · simp [hc]
  · simp only [hc, if_false]
    exact fun a ha => List.mem_cons_of_mem _ ha

theorem foldl_getReady_check_sub (hash : String → String) :
    ∀ (cs : List Chunk) (st : ReadyState),
      st.check ⊆ (List.foldl (getReadyStep hash) st cs).check := by
  intro cs
  induction cs with
  | nil => intro st a ha; simpa using ha
  | cons c cs ih =>
    intro st a ha
    simp only [List.foldl_cons]
    exact ih (getReadyStep hash st c) (getReadyStep_check_sub hash st c ha)

theorem foldl_getReady_mem_check (hash : String → String) :
    ∀ (cs : List Chunk) (st : ReadyState) (c : Chunk),
      c ∈ cs → hash c.content ∈ (List.foldl (getReadyStep hash) st cs).check := by
  intro cs
  induction cs with
  | nil => intro st c h; cases h
  | cons d cs ih =>
    intro st c hc
    simp only [List.foldl_cons]
    rcases List.mem_cons.mp hc with hcd | hc2
    · apply foldl_getReady_check_sub hash cs (getReadyStep hash st d)
      rw [hcd]
      simp only [getReadyStep]
      by_cases hd : hash d.content ∈ st.check
      · simp [hd]
      · simp [hd]
    · exact ih _ c hc2

theorem foldl_getReady_skip (hash : String → String) :
    ∀ (cs : List Chunk) (st : ReadyState),
      (∀ c ∈ cs, hash c.content ∈ st.check) →
        List.foldl (getReadyStep hash) st cs = st := by
  intro cs
  induction cs with
  | nil => intro st _; rfl
  | cons c cs ih =>
    intro st h
    have hst : getReadyStep hash st c = st := by
      simp [getReadyStep, h c (List.mem_cons_self c cs)]
    simp only [List.foldl_cons, hst]
    exact ih st (fun w hw => h w (List.mem_cons_of_mem c hw))

theorem foldl_getReady_ids_map (hash : String → String) :
    ∀ (cs : List Chunk) (st : ReadyState), st.ids = st.texts.map hash →
      (List.foldl (getReadyStep hash) st cs).ids =
        ((List.foldl (getReadyStep hash) st cs).texts).map hash := by
  intro cs
  induction cs with
  | nil => intro st h; simpa using h
  | cons c cs ih =>
    intro st h
    simp only [List.foldl_cons]
    apply ih
    simp only [getReadyStep]
    by_cases hc : hash c.content ∈ st.check
    · simpa [hc] using h
    · simp [hc, h]

/-! ## Claim C6 -/

/-- C6 (counterexample): `DB.get_ready` in src/db.py performs no
deduplication — on two chunks with the same content it submits the content
(and its id and metadata) twice, so the cited indexing path does not give the
backend each distinct content exactly once. -/
theorem C6_counterexample_db_get_ready_no_dedup :
    (DB.get_ready (fun s => s) [⟨1, "x", "s"⟩, ⟨1, "x", "s"⟩]).2.1 = ["x", "x"]
    ∧ ¬ ((DB.get_ready (fun s => s) [⟨1, "x", "s"⟩, ⟨1, "x", "s"⟩]).2.1).Nodup
    ∧ (Indexer.get_ready (fun s => s) [⟨1, "x", "s"⟩, ⟨1, "x", "s"⟩]).2.1 = ["x"] := by
  refine ⟨by decide, by decide, by decide⟩

/-- C6 (amended): `Indexer.get_ready` (src/indexer.py) deduplicates by content
hash with a seen-hash set before anything is sent to a backend: for an
injective (collision-free) hash its output is exactly the first-occurrence
content-deduplicated chunk list mapped to ids, texts and metadatas, with no
duplicate content; the parallel `DB.get_ready` of src/db.py, however, submits
every chunk without deduplication. -/
theorem C6_indexer_get_ready_dedups (hash : String → String)
    (hinj : Function.Injective hash) (chunks : List Chunk) :
    Indexer.get_ready hash chunks =
        ((specFirstDedup chunks).map (fun c => hash c.content),
          (specFirstDedup chunks).map (fun c => c.content),
          (specFirstDedup chunks).map chunkMeta)
    ∧ ((specFirstDedup chunks).map (fun c => c.content)).Nodup
    ∧ DB.get_ready hash chunks =
        (chunks.map (fun c => hash c.content), chunks.map (fun c => c.content),
          chunks.map chunkMeta) := by
  refine ⟨?_, (firstDedupAux_nodup chunks []).1, rfl⟩
  unfold Indexer.get_ready specFirstDedup
  rw [show (⟨[], [], [], []⟩ : ReadyState) = ⟨([] : List String).map hash, [], [], []⟩ from rfl]
  rw [getReady_foldl_spec hash hinj chunks [] [] [] []]
  simp

/-- C6 (witness). -/
theorem C6_witness :
    Indexer.get_ready (fun s => s) [⟨1, "x", "s"⟩, ⟨2, "x", "t"⟩, ⟨3, "y", "s"⟩] =
        ((specFirstDedup [⟨1, "x", "s"⟩, ⟨2, "x", "t"⟩, ⟨3, "y", "s"⟩]).map
            (fun c => (fun s => s) c.content),
          (specFirstDedup [⟨1, "x", "s"⟩, ⟨2, "x", "t"⟩, ⟨3, "y", "s"⟩]).map
            (fun c => c.content),
          (specFirstDedup [⟨1, "x", "s"⟩, ⟨2, "x", "t"⟩, ⟨3, "y", "s"⟩]).map chunkMeta)
    ∧ ((specFirstDedup [⟨1, "x", "s"⟩, ⟨2, "x", "t"⟩, ⟨3, "y", "s"⟩]).map
        (fun c => c.content)).Nodup
    ∧ DB.get_ready (fun s => s) [⟨1, "x", "s"⟩, ⟨2, "x", "t"⟩, ⟨3, "y", "s"⟩] =
        (([⟨1, "x", "s"⟩, ⟨2, "x", "t"⟩, ⟨3, "y", "s"⟩] : List Chunk).map
            (fun c => (fun s => s) c.content),
          ([⟨1, "x", "s"⟩, ⟨2, "x", "t"⟩, ⟨3, "y", "s"⟩] : List Chunk).map
            (fun c => c.content),
          ([⟨1, "x", "s"⟩, ⟨2, "x", "t"⟩, ⟨3, "y", "s"⟩] : List Chunk).map chunkMeta) :=
  C6_indexer_get_ready_dedups (fun s => s) (fun _ _ h => h)
    [⟨1, "x", "s"⟩, ⟨2, "x", "t"⟩, ⟨3, "y", "s"⟩]

/-! ## Helper lemmas: batching -/

theorem batchesF_join (bs : Nat) (hbs : 0 < bs) :
    ∀ (fuel : Nat) (ids texts : List String) (metas : List Meta), ids.length ≤ fuel →
      ((batchesF fuel bs ids texts metas).map (fun b => b.1)).flatten = ids := by
  intro fuel
  induction fuel with
  | zero =>
    intro ids texts metas hlen
    have hids : ids = [] := List.eq_nil_of_length_eq_zero (Nat.le_zero.mp hlen)
    subst hids
    simp [batchesF]
  | succ fuel ih =>
    intro ids texts metas hlen
    cases ids with
    | nil => simp [batchesF]
    | cons x xs =>
      simp only [batchesF, List.map_cons, List.flatten_cons]
      rw [ih ((x :: xs).drop bs) (texts.drop bs) (metas.drop bs) ?hlen]
      · exact List.take_append_drop bs (x :: xs)
      case hlen =>
        simp only [List.length_drop, List.length_cons] at hlen ⊢
        omega

theorem batchesF_batch_le (bs : Nat) :
    ∀ (fuel : Nat) (ids texts : List String) (metas : List Meta)
      (b : List String × List String × List Meta),
      b ∈ batchesF fuel bs ids texts metas → b.1.length ≤ bs := by
  intro fuel
  induction fuel with
  | zero =>
    intro ids texts metas b hb
    cases ids <;> simp [batchesF] at hb
  | succ fuel ih =>
    intro ids texts metas b hb
    cases ids with
    | nil => simp [batchesF] at hb
    | cons x xs =>
      simp only [batchesF, List.mem_cons] at hb
      rcases hb with hb1 | hb2
      · rw [hb1]
        exact List.length_take_le bs (x :: xs)
      · exact ih _ _ _ b hb2

/-! ## Claim C7 -/

/-- C7: indexing submits the deduplicated lists in sequential batches of
`batch_size` and a failing batch does not abort the others — the sequence of
attempted batches is the same whatever the per-batch outcomes are, the
attempted id-batches concatenate back to the whole deduplicated id list (so
every batch, before and after a failing one, is attempted), and every batch
has at most `batch_size` ids. -/
theorem C7_batching_fault_tolerant (hash : String → String)
    (addOk addOk2 : List String → List String → List Meta → Bool)
    (chunks : List Chunk) (bs : Nat) (hbs : 0 < bs) :
    (Indexer.index hash addOk chunks bs).map Prod.fst =
        (Indexer.index hash addOk2 chunks bs).map Prod.fst
    ∧ ((Indexer.index hash addOk chunks bs).map (fun b => b.1.1)).flatten =
        (Indexer.get_ready hash chunks).1
    ∧ ∀ b ∈ Indexer.index hash addOk chunks bs, b.1.1.length ≤ bs := by
  refine ⟨?_, ?_, ?_⟩
  · simp [Indexer.index, List.map_map, Function.comp]
  · simp only [Indexer.index, List.map_map, Function.comp]
    exact batchesF_join bs hbs _ _ _ _ le_rfl
  · intro b hb
    simp only [Indexer.index, List.mem_map] at hb
    rcases hb with ⟨b0, hb0, hbe⟩
    rw [← hbe]
    exact batchesF_batch_le bs _ _ _ _ b0 hb0

/-- C7 (witness): five single-chunk batches with the second batch failing —
all five batches are still attempted. -/
theorem C7_witness :
    ((Indexer.index (fun s => s) (fun ids _ _ => ids ≠ ["b"])
          [⟨1, "a", "s"⟩, ⟨2, "b", "s"⟩, ⟨3, "c", "s"⟩, ⟨4, "d", "s"⟩, ⟨5, "e", "s"⟩]
          1).map Prod.fst =
        (Indexer.index (fun s => s) (fun _ _ _ => true)
          [⟨1, "a", "s"⟩, ⟨2, "b", "s"⟩, ⟨3, "c", "s"⟩, ⟨4, "d", "s"⟩, ⟨5, "e", "s"⟩]
          1).map Prod.fst
      ∧ ((Indexer.index (fun s => s) (fun ids _ _ => ids ≠ ["b"])
            [⟨1, "a", "s"⟩, ⟨2, "b", "s"⟩, ⟨3, "c", "s"⟩, ⟨4, "d", "s"⟩, ⟨5, "e", "s"⟩]
            1).map (fun b => b.1.1)).flatten =
        (Indexer.get_ready (fun s => s)
          [⟨1, "a", "s"⟩, ⟨2, "b", "s"⟩, ⟨3, "c", "s"⟩, ⟨4, "d", "s"⟩, ⟨5, "e", "s"⟩]).1
      ∧ ∀ b ∈ Indexer.index (fun s => s) (fun ids _ _ => ids ≠ ["b"])
            [⟨1, "a", "s"⟩, ⟨2, "b", "s"⟩, ⟨3, "c", "s"⟩, ⟨4, "d", "s"⟩, ⟨5, "e", "s"⟩]
            1, b.1.1.length ≤ 1) ∧
      (Indexer.index (fun s => s) (fun ids _ _ => ids ≠ ["b"])
          [⟨1, "a", "s"⟩, ⟨2, "b", "s"⟩, ⟨3, "c", "s"⟩, ⟨4, "d", "s"⟩, ⟨5, "e", "s"⟩]
          1).map (fun b => (b.1.1, b.2)) =
        [(["a"], true), (["b"], false), (["c"], true), (["d"], true), (["e"], true)] :=
  ⟨C7_batching_fault_tolerant (fun s => s) (fun ids _ _ => ids ≠ ["b"]) (fun _ _ _ => true)
      [⟨1, "a", "s"⟩, ⟨2, "b", "s"⟩, ⟨3, "c", "s"⟩, ⟨4, "d", "s"⟩, ⟨5, "e", "s"⟩] 1
      (by decide),
    by decide⟩

/-! ## Claim C8 -/

/-- C8: the index-entry id is a deterministic function of the chunk text
alone — chunks with equal content get equal ids, the ids list is exactly the
hash image of the texts list, and running the indexing preparation on the same
chunk sequence twice (the duplicated input) yields exactly the same ids,
texts and metadatas as running it once. -/
theorem C8_content_addressed_ids (hash : String → String) (chunks : List Chunk)
    (c c2 : Chunk) (hcc : c.content = c2.content) :
    entryId hash c = entryId hash c2
    ∧ Indexer.get_ready hash (chunks ++ chunks) = Indexer.get_ready hash chunks
    ∧ (Indexer.get_ready hash chunks).1 = ((Indexer.get_ready hash chunks).2.1).map hash := by
  refine ⟨by simp [entryId, hcc], ?_, ?_⟩
  · unfold Indexer.get_ready
    rw [List.foldl_append]
    rw [foldl_getReady_skip hash chunks _
      (fun w hw => foldl_getReady_mem_check hash chunks _ w hw)]
  · unfold Indexer.get_ready
    exact foldl_getReady_ids_map hash chunks _ rfl

/-- C8 (witness). -/
theorem C8_witness :
    entryId (fun s => s ++ "#") ⟨1, "aa", "s"⟩ = entryId (fun s => s ++ "#") ⟨2, "aa", "t"⟩
    ∧ Indexer.get_ready (fun s => s ++ "#")
          ([⟨1, "aa", "s"⟩, ⟨2, "bb", "s"⟩] ++ [⟨1, "aa", "s"⟩, ⟨2, "bb", "s"⟩]) =
        Indexer.get_ready (fun s => s ++ "#") [⟨1, "aa", "s"⟩, ⟨2, "bb", "s"⟩]
    ∧ (Indexer.get_ready (fun s => s ++ "#") [⟨1, "aa", "s"⟩, ⟨2, "bb", "s"⟩]).1 =
        ((Indexer.get_ready (fun s => s ++ "#")
            [⟨1, "aa", "s"⟩, ⟨2, "bb", "s"⟩]).2.1).map (fun s => s ++ "#") :=
  C8_content_addressed_ids (fun s => s ++ "#") [⟨1, "aa", "s"⟩, ⟨2, "bb", "s"⟩]
    ⟨1, "aa", "s"⟩ ⟨2, "aa", "t"⟩ rfl

/-! ## Claim C3 -/

theorem chunkPagesExc_error_of_missing_content (split : String → List String) (k : Nat) :
    ∀ (pages : List Page) (p : Page), p ∈ pages → p.content = none →
      exceptErr (chunkPagesExc split k pages) = true := by
  intro pages
  induction pages with
  | nil => intro p hp _; cases hp
  | cons q ps ih =>
    intro p hp hc
    rcases List.mem_cons.mp hp with hpq | hp2
    · have hq : chunkPage split k q = Except.error "KeyError" := by
        rw [← hpq]
        rcases p with ⟨pn, pc, psrc⟩
        simp only at hc
        subst hc
        cases pn <;> cases psrc <;> simp [chunkPage]
      simp [chunkPagesExc, hq, exceptErr]
    · simp only [chunkPagesExc]
      cases hq : chunkPage split k q with
      | error e => simp [exceptErr]
      | ok cks =>
        have htail := ih p hp2 hc
        cases hr : chunkPagesExc split k ps with
        | error e => simp [exceptErr]
        | ok rest =>
          rw [hr] at htail
          simp [exceptErr] at htail

/-- C3 (counterexample): a good page followed by a malformed page (missing
content key) makes `Chunker.chunk` return the empty list — the good page's
chunk is lost, so chunking does not skip the bad page and continue; alone, the
same good page does produce its chunk. -/
theorem C3_counterexample_good_page_lost :
    Chunker.chunk (fun s => [s]) 300
        [⟨some 1, some "Short text.", some "doc.pdf"⟩, ⟨some 2, none, some "doc.pdf"⟩] = []
    ∧ Chunker.chunk (fun s => [s]) 300 [⟨some 1, some "Short text.", some "doc.pdf"⟩] =
        [⟨1, "Short text.", "doc.pdf"⟩] := by
  refine ⟨by decide, by decide⟩

/-- C3 (amended): `Chunker.chunk` catches exceptions only around the whole
page loop: whenever any page of the batch is malformed (missing content), the
entire call returns the empty list — no chunks from the other pages survive —
rather than raising; it never skips just the bad page. -/
theorem C3_malformed_page_aborts_batch (split : String → List String) (k : Nat)
    (pages : List Page) (p : Page) (hp : p ∈ pages) (hc : p.content = none) :
    Chunker.chunk split k pages = [] := by
  have herr := chunkPagesExc_error_of_missing_content split k pages p hp hc
  unfold Chunker.chunk
  cases h : chunkPagesExc split k pages with
  | error e => rfl
  | ok cks =>
    rw [h] at herr
    simp [exceptErr] at herr

/-- C3 (witness). -/
theorem C3_witness :
    Chunker.chunk (fun s => [s]) 200
        [⟨some 1, some "Good page text.", some "a.pdf"⟩, ⟨some 2, none, some "a.pdf"⟩] = [] :=
  C3_malformed_page_aborts_batch (fun s => [s]) 200
    [⟨some 1, some "Good page text.", some "a.pdf"⟩, ⟨some 2, none, some "a.pdf"⟩]
    ⟨some 2, none, some "a.pdf"⟩ (by decide) rfl

/-! ## Claim C2 -/

/-- C2 (counterexample): with an empty dense collection the per-question
retrieval loop of `query_discom_orders` raises a `TypeError` (adding `None` to
the lexical result list) instead of skipping the dense query and contributing
no results — an exception does propagate out of retrieval. -/
theorem C2_counterexample_empty_collection_raises :
    retrieveStep 0 (fun _ _ => Except.ok [["docA"]]) ["w1"] "fixed charges" =
      Except.error "TypeError" := rfl

/-- C2 (amended): when the dense collection is empty, and likewise when the
dense backend raises, `DB.query` returns `None` (not an empty list); the
retrieval loop then raises a `TypeError` on `result_chroma + result_whoosh`,
so those failures are not converted into zero results — they propagate as an
exception out of the retrieval step. -/
theorem C2_retrieval_raises_on_empty_or_error (count : Nat)
    (backend : List String → Nat → Except String (List (List String)))
    (whooshDocs : List String) (q : String)
    (h : count = 0 ∨ exceptErr (backend [q] (min 10 count)) = true) :
    retrieveStep count backend whooshDocs q = Except.error "TypeError" := by
  unfold retrieveStep pyConcat DB.query
  rcases h with h0 | herr
  · simp [h0]
  · by_cases h0 : count = 0
    · simp [h0]
    · simp only [h0, if_false]
      cases hb : backend [q] (min 10 count) with
      | error e => simp
      | ok docs =>
        rw [hb] at herr
        simp [exceptErr] at herr

/-- C2 (witness). -/
theorem C2_witness :
    retrieveStep 0 (fun _ _ => Except.ok [["d1"]]) [] "energy charges" =
      Except.error "TypeError" :=
  C2_retrieval_raises_on_empty_or_error 0 (fun _ _ => Except.ok [["d1"]]) []
    "energy charges" (Or.inl rfl)

/-! ## Claim C9 -/

/-- C9: `DB.query` returns `None` — not an empty list — exactly when the
collection is empty or the backend query raises (for a backend that returns a
non-empty per-query document list on success), and a caller concatenating the
result to another list with `+` raises a `TypeError` in exactly the cases
where `DB.query` returned `None`. -/
theorem C9_db_query_none_iff (count : Nat)
    (backend : List String → Nat → Except String (List (List String)))
    (queries : List String) (topk : Nat) (whooshDocs : List String)
    (hwell : ∀ docs, backend queries (min topk count) = Except.ok docs → docs ≠ []) :
    (DB.query count backend queries topk = none ↔
        count = 0 ∨ exceptErr (backend queries (min topk count)) = true)
    ∧ (exceptErr (pyConcat (DB.query count backend queries topk) whooshDocs) = true ↔
        DB.query count backend queries topk = none) := by
  constructor
  · unfold DB.query
    by_cases h0 : count = 0
    · simp [h0]
    · simp only [h0, if_false]
      cases hb : backend queries (min topk count) with
      | error e => simp [exceptErr]
      | ok docs =>
        have hne := hwell docs hb
        cases docs with
        | nil => exact absurd rfl hne
        | cons d ds => simp [exceptErr, h0]
  · cases hq : DB.query count backend queries topk with
    | none => simp [pyConcat, exceptErr]
    | some l => simp [pyConcat, exceptErr]

/-- C9 (witness): an empty collection. -/
theorem C9_witness :
    (DB.query 0 (fun _ _ => Except.ok [["d"]]) ["q"] 5 = none ↔
        (0 : Nat) = 0 ∨
          exceptErr ((fun (_ : List String) (_ : Nat) =>
            (Except.ok [["d"]] : Except String (List (List String)))) ["q"]
            (min 5 0)) = true)
    ∧ (exceptErr (pyConcat (DB.query 0 (fun _ _ => Except.ok [["d"]]) ["q"] 5) ["w"]) = true ↔
        DB.query 0 (fun _ _ => Except.ok [["d"]]) ["q"] 5 = none) :=
  C9_db_query_none_iff 0 (fun _ _ => Except.ok [["d"]]) ["q"] 5 ["w"]
    (fun docs h => by
      injection h with h2
      rw [← h2]
      decide)

/-! ## Claim C10 -/

/-- C10: for a non-empty collection and a successful backend call whose result
has one ranked list per query text, `DB.query` returns only the first query
text's document list — element 0 of the per-query results — discarding every
other query's results in the same call. -/
theorem C10_db_query_first_only (count : Nat)
    (backend : List String → Nat → Except String (List (List String)))
    (queries : List String) (topk : Nat) (d : List String) (rest : List (List String))
    (h0 : count ≠ 0) (hb : backend queries (min topk count) = Except.ok (d :: rest)) :
    DB.query count backend queries topk = some d := by
  unfold DB.query
  simp [h0, hb]

/-- C10 (witness): two query texts, only the first one's documents returned. -/
theorem C10_witness :
    DB.query 2 (fun _ _ => Except.ok [["a1"], ["b1"]]) ["q1", "q2"] 5 = some ["a1"] :=
  C10_db_query_first_only 2 (fun _ _ => Except.ok [["a1"], ["b1"]]) ["q1", "q2"] 5
    ["a1"] [["b1"]] (by decide) rfl

/-! ## Claim C5 -/

/-- C5: the expansion of "What are Fixed Charges for HT?" contains the
unigrams "fixed", "charges" and "ht", the bigram "fixed charges" and the full
original question; a non-empty `must_include` term is appended (space-joined)
to every variant; a non-empty exclusion list appends a space-joined sequence
of "NOT term" clauses to every variant. -/
theorem C5_query_expansion (q m : String) (mi : Option String) (excl : List String)
    (hm : m ≠ "") (hex : excl ≠ []) :
    ("fixed" ∈ extract_retrieval_queries "What are Fixed Charges for HT?" [] none
      ∧ "charges" ∈ extract_retrieval_queries "What are Fixed Charges for HT?" [] none
      ∧ "ht" ∈ extract_retrieval_queries "What are Fixed Charges for HT?" [] none
      ∧ "fixed charges" ∈ extract_retrieval_queries "What are Fixed Charges for HT?" [] none
      ∧ "What are Fixed Charges for HT?" ∈
          extract_retrieval_queries "What are Fixed Charges for HT?" [] none)
    ∧ extract_retrieval_queries q [] (some m) =
        (extract_retrieval_queries q [] none).map (fun s => s ++ " " ++ m)
    ∧ extract_retrieval_queries q excl mi =
        (extract_retrieval_queries q [] mi).map
          (fun s => s ++ " " ++ " ".intercalate (excl.map (fun kw => "NOT " ++ kw))) := by
  refine ⟨⟨by decide, by decide, by decide, by decide, by decide⟩, ?_, ?_⟩
  · simp [extract_retrieval_queries, hm]
  · cases excl with
    | nil => exact absurd rfl hex
    | cons e es => rfl

/-- C5 (witness). -/
theorem C5_witness :
    ("fixed" ∈ extract_retrieval_queries "What are Fixed Charges for HT?" [] none
      ∧ "charges" ∈ extract_retrieval_queries "What are Fixed Charges for HT?" [] none
      ∧ "ht" ∈ extract_retrieval_queries "What are Fixed Charges for HT?" [] none
      ∧ "fixed charges" ∈ extract_retrieval_queries "What are Fixed Charges for HT?" [] none
      ∧ "What are Fixed Charges for HT?" ∈
          extract_retrieval_queries "What are Fixed Charges for HT?" [] none)
    ∧ extract_retrieval_queries "Energy Charges" [] (some "approved") =
        (extract_retrieval_queries "Energy Charges" [] none).map
          (fun s => s ++ " " ++ "approved")
    ∧ extract_retrieval_queries "Energy Charges" ["proposed", "estimated"] none =
        (extract_retrieval_queries "Energy Charges" [] none).map
          (fun s => s ++ " " ++
            " ".intercalate ((["proposed", "estimated"] : List String).map
              (fun kw => "NOT " ++ kw))) :=
  C5_query_expansion "Energy Charges" "approved" none ["proposed", "estimated"]
    (by decide) (by decide)

end RegAgent
